import Mathlib

/-!
Verification of the message-selection and stream-translation logic of the
`get-next-completion-stream-promise` route handler.

The handler's pure logic is embedded shallowly:

* `optimizeMessagesForTokens` — code-block stripping with the two most recent
  assistant messages exempt (source lines 7–30);
* `capMessages` — the `length > 10` capping step (source lines 62–64);
* `POST` — the handler's control flow over an abstract store lookup, with an
  effect trace recording the history query and the provider call
  (source lines 32–127);
* `mkGeminiRequest` / `mkTogetherRequest` — the per-provider request shaping;
* `geminiStream` — the `ReadableStream` translation of the Gemini chunk
  sequence into SSE events (source lines 83–104).

The JavaScript regex replace of three-backtick-delimited spans
(non-greedy, `[\s\S]` content, global flag) by the empty string is embedded
as `removeFences` on `List Char`: repeatedly find the earliest fence, lazily
find the earliest closing fence after it, drop the span, and continue after
it; if an opening fence has no closer, no further match exists anywhere and
the rest is kept verbatim.
-/

set_option maxHeartbeats 1000000
set_option linter.unusedVariables false

/-- Roles a stored chat message can carry (the `z.enum` of the route's
validation schema). -/
inductive Role where
  | system
  | user
  | assistant
deriving DecidableEq, Repr

/-- A role/content message as validated by the route's schema. -/
structure Message where
  role : Role
  content : String
deriving DecidableEq, Repr

/-- The backtick character (written via its code point to keep the Lean
source free of stray backticks). -/
def btChar : Char := Char.ofNat 96

/-- A fence delimiter: three consecutive backticks. -/
def fenceStr : List Char := [btChar, btChar, btChar]

/-- Whether a fence delimiter starts at the head of `s`. -/
def fenceAt (s : List Char) : Bool := decide (s.take 3 = fenceStr)

/-- Find the earliest fence delimiter in `s`: `some (b, r)` with
`s = b ++ fenceStr ++ r` and no fence starting inside `b`, or `none`. -/
def splitFence : List Char → Option (List Char × List Char)
  | [] => none
  | c :: cs =>
    if fenceAt (c :: cs) then some ([], cs.drop 2)
    else (splitFence cs).map (fun p => (c :: p.1, p.2))

/-- Some fence delimiter occurs in `s`. -/
def hasFence : List Char → Bool
  | [] => false
  | c :: cs => fenceAt (c :: cs) || hasFence cs

/-- A full regex match exists: a fence delimiter followed, disjointly,
by another fence delimiter. -/
def hasPair (s : List Char) : Bool :=
  match splitFence s with
  | none => false
  | some (_, r) => hasFence r

/-- The JavaScript global replace of every non-greedy fenced span by the
empty string (source line 25, before the trim). -/
def removeFences (s : List Char) : List Char :=
  match h1 : splitFence s with
  | none => s
  | some (b, r) =>
    match h2 : splitFence r with
    | none => s
    | some (_, r2) => b ++ removeFences r2
termination_by s.length
decreasing_by
  have key : ∀ (t : List Char) b r, splitFence t = some (b, r) →
      r.length + 3 ≤ t.length := by
    intro t
    induction t with
    | nil => intro b r h; simp [splitFence] at h
    | cons c cs ih =>
      intro b r h
      by_cases hf : fenceAt (c :: cs)
      · simp [splitFence, hf] at h
        have hlen : (3 : Nat) ≤ cs.length + 1 := by
          have h3 : (c :: cs).take 3 = fenceStr := by simpa [fenceAt] using hf
          have := congrArg List.length h3
          simp [fenceStr] at this
          omega
        obtain ⟨hb, hr⟩ := h
        subst hr
        simp only [List.length_drop, List.length_cons]
        omega
      · simp [splitFence, hf] at h
        obtain ⟨p1, hsome, hb⟩ := h
        have := ih p1 r hsome
        simp only [List.length_cons]
        omega
  have e1 := key s b r h1
  have e2 := key r _ r2 h2
  omega

/-- The whitespace class of JavaScript trimming: WhiteSpace ∪ LineTerminator. -/
def isJSWhitespace (c : Char) : Bool :=
  c.val = 0x9 || c.val = 0xa || c.val = 0xb || c.val = 0xc || c.val = 0xd ||
  c.val = 0x20 || c.val = 0xa0 || c.val = 0x1680 ||
  (0x2000 ≤ c.val && c.val ≤ 0x200a) ||
  c.val = 0x2028 || c.val = 0x2029 || c.val = 0x202f || c.val = 0x205f ||
  c.val = 0x3000 || c.val = 0xfeff

/-- Remove leading JS whitespace. -/
def ltrim (s : List Char) : List Char := s.dropWhile isJSWhitespace

/-- Remove trailing JS whitespace. -/
def rtrim (s : List Char) : List Char := (s.reverse.dropWhile isJSWhitespace).reverse

/-- JavaScript trimming of both ends. -/
def trimChars (s : List Char) : List Char := ltrim (rtrim s)

/-- The per-message content rewrite of source line 25: replace every fenced
span by the empty string, then trim. -/
def stripCodeBlocks (s : String) : String :=
  String.mk (trimChars (removeFences s.data))

/-- The value a JavaScript out-of-range array read would produce is never
reached by the handler; any default serves for total indexing. -/
def defaultMessage : Message := { role := Role.user, content := "" }

/-- The role stored at index `i` (total, via the default). -/
def roleAt (msgs : List Message) (i : Nat) : Role :=
  (msgs.getD i defaultMessage).role

/-- The collection loop of source lines 11–19: walk indices downward from
the end, recording indices of assistant messages, stopping once two are
recorded.  `collectAssistant msgs i acc` is the loop with `i - 1` as the
next index to inspect and `acc` the indices recorded so far. -/
def collectAssistant (msgs : List Message) : Nat → List Nat → List Nat
  | 0, acc => acc
  | i + 1, acc =>
    if acc.length < 2 then
      collectAssistant msgs i
        (if roleAt msgs i = Role.assistant then acc ++ [i] else acc)
    else acc

/-- The `assistantIndices` array of source line 10 after the loop ran. -/
def assistantIndices (msgs : List Message) : List Nat :=
  collectAssistant msgs msgs.length []

/-- JavaScript `Array.prototype.map` with the element's index. -/
def mapIdxGo (f : Nat → Message → Message) : Nat → List Message → List Message
  | _, [] => []
  | i, m :: ms => f i m :: mapIdxGo f (i + 1) ms

/-- Source lines 7–30: strip code blocks from assistant messages except the
(up to) two most recent ones. -/
def optimizeMessagesForTokens (messages : List Message) : List Message :=
  mapIdxGo
    (fun index msg =>
      if msg.role = Role.assistant ∧ ¬ index ∈ assistantIndices messages then
        { msg with content := stripCodeBlocks msg.content }
      else msg)
    0 messages

/-- Source lines 62–64: when more than 10 messages remain, keep the entries
at indices 0, 1, 2 followed by the last seven (`slice(-7)`). -/
def capMessages (messages : List Message) : List Message :=
  if 10 < messages.length then
    [messages.getD 0 defaultMessage, messages.getD 1 defaultMessage,
        messages.getD 2 defaultMessage] ++
      messages.drop (messages.length - 7)
  else messages

/-- Whether `pat` is a prefix of `s` (decidable, for the scan below). -/
def listStartsWith (pat s : List Char) : Bool :=
  decide (s.take pat.length = pat)

/-- Whether `pat` occurs contiguously in `s`: JavaScript
`String.prototype.includes`, case-sensitive. -/
def listContainsSub (s pat : List Char) : Bool :=
  match s with
  | [] => decide (pat = [])
  | _ :: cs => listStartsWith pat s || listContainsSub cs pat

/-- JavaScript `s.includes(pat)` on strings. -/
def strIncludes (s pat : String) : Bool := listContainsSub s.data pat.data

/-- The marker the dispatch tests for (source line 66). -/
def geminiMarker : String := "gemini"

/-- One element of a Gemini turn's `parts` array. -/
structure GeminiPart where
  text : String
deriving DecidableEq, Repr

/-- One entry of the Gemini `contents` turn list. -/
structure GeminiTurn where
  role : String
  parts : List GeminiPart
deriving DecidableEq, Repr

/-- The request handed to the Gemini SDK: the fixed model identifier of
source line 71, the reshaped turn list and the extracted system
instruction of source lines 73–81. -/
structure GeminiRequest where
  modelId : String
  contents : List GeminiTurn
  systemInstruction : Option String
deriving DecidableEq, Repr

/-- Source lines 71–81: fixed model id, non-system messages reshaped into
turns, first system message's content as the system instruction. -/
def mkGeminiRequest (messages : List Message) : GeminiRequest :=
  { modelId := "gemini-1.5-pro"
  , contents :=
      (messages.filter (fun m => decide (m.role ≠ Role.system))).map
        (fun m =>
          { role := if m.role = Role.assistant then "model" else "user"
          , parts := [{ text := m.content }] })
  , systemInstruction :=
      (messages.find? (fun m => decide (m.role = Role.system))).map
        Message.content }

/-- The request handed to the Together client (source lines 120–126).
The floating-point sampling temperature is out of scope; the remaining
invocation parameters are carried verbatim. -/
structure TogetherRequest where
  model : String
  messages : List Message
  stream : Bool
  maxTokens : Nat
deriving DecidableEq, Repr

/-- Source lines 120–126: requested model forwarded verbatim, messages
projected to role/content pairs, streaming on, bounded output length. -/
def mkTogetherRequest (model : String) (messages : List Message) : TogetherRequest :=
  { model := model
  , messages := messages.map (fun m => { role := m.role, content := m.content })
  , stream := true
  , maxTokens := 9000 }

/-- The one upstream call a request performs. -/
inductive ProviderCall where
  | gemini (req : GeminiRequest)
  | together (req : TogetherRequest)
deriving DecidableEq, Repr

/-- Observable side effects of the handler, in order: the conversation
history query (source lines 46–49) and the provider invocation. -/
inductive Effect where
  | historyQuery
  | providerCall (call : ProviderCall)
deriving DecidableEq, Repr

/-- The handler's response: the empty-body 404 of source line 43, or the
SSE response built from the chosen provider's stream. -/
inductive HandlerResponse where
  | notFound
  | eventStream (call : ProviderCall)
deriving DecidableEq, Repr

/-- HTTP status of a response. -/
def statusCode : HandlerResponse → Nat
  | HandlerResponse.notFound => 404
  | HandlerResponse.eventStream _ => 200

/-- Whether the response carries an empty body (`new Response(null, ...)`). -/
def bodyIsEmpty : HandlerResponse → Bool
  | HandlerResponse.notFound => true
  | HandlerResponse.eventStream _ => false

/-- Whether an effect is a provider invocation. -/
def isProviderCall : Effect → Bool
  | Effect.providerCall _ => true
  | _ => false

/-- Whether an effect is a Gemini invocation. -/
def isGeminiCall : Effect → Bool
  | Effect.providerCall (ProviderCall.gemini _) => true
  | _ => false

/-- Whether an effect is a Together invocation. -/
def isTogetherCall : Effect → Bool
  | Effect.providerCall (ProviderCall.together _) => true
  | _ => false

/-- The handler of source lines 32–127 over an abstract store: `stored`
is the result of the `findUnique` lookup (only existence matters),
`history` the ordered rows the `findMany` history query returns, `model`
the request's model string.  The first component is the trace of
observable effects, the second the HTTP response. -/
def POST (stored : Option Unit) (history : List Message) (model : String) :
    List Effect × HandlerResponse :=
  match stored with
  | none => ([], HandlerResponse.notFound)
  | some _ =>
    let messages := capMessages (optimizeMessagesForTokens history)
    let call :=
      if strIncludes model geminiMarker then
        ProviderCall.gemini (mkGeminiRequest messages)
      else
        ProviderCall.together (mkTogetherRequest model messages)
    ([Effect.historyQuery, Effect.providerCall call],
      HandlerResponse.eventStream call)

/-- One chunk of the Gemini SDK's lazy sequence, reduced to the text delta
`chunk.text()` returns. -/
structure GeminiChunk where
  text : String
deriving DecidableEq, Repr

/-- Lowercase hexadecimal digit. -/
def hexDigit (n : Nat) : Char := Nat.digitChar (n % 16)

/-- Four lowercase hexadecimal digits, as in a JSON `\uXXXX` escape. -/
def hex4 (n : Nat) : List Char :=
  [hexDigit (n / 4096), hexDigit (n / 256), hexDigit (n / 16), hexDigit n]

/-- The JSON string escaping `JSON.stringify` applies to one character. -/
def jsonEscapeChar (c : Char) : List Char :=
  if c = '\"' then ['\\', '\"']
  else if c = '\\' then ['\\', '\\']
  else if c = Char.ofNat 8 then ['\\', 'b']
  else if c = Char.ofNat 9 then ['\\', 't']
  else if c = Char.ofNat 10 then ['\\', 'n']
  else if c = Char.ofNat 12 then ['\\', 'f']
  else if c = Char.ofNat 13 then ['\\', 'r']
  else if c.val < 32 then '\\' :: 'u' :: hex4 c.toNat
  else [c]

/-- A JSON string literal for `s`, as `JSON.stringify` prints it. -/
def jsonQuote (s : String) : String :=
  String.mk ('\"' :: (s.data.map jsonEscapeChar).flatten ++ ['\"'])

/-- The serialized payload of source lines 89–91:
`JSON.stringify` of the one-delta choices object. -/
def payloadJson (text : String) : String :=
  "\x7b\"choices\":[\x7b\"delta\":\x7b\"content\":" ++ jsonQuote text ++
    "\x7d\x7d]\x7d"

/-- One SSE event as enqueued on source line 93. -/
def sseEvent (payload : String) : String := "data: " ++ payload ++ "\n\n"

/-- The sentinel event of source line 98. -/
def doneEvent : String := "data: [DONE]\n\n"

/-- How the outgoing `ReadableStream` ends: `controller.close()` or
`controller.error(e)`. -/
inductive StreamEnding where
  | closed
  | errored
deriving DecidableEq, Repr

/-- The outgoing stream: the byte strings enqueued, in order, and how the
stream ends. -/
structure OutStream where
  events : List String
  ending : StreamEnding
deriving DecidableEq, Repr

/-- The loop body of source lines 86–96: one event per chunk whose text is
non-empty (JavaScript truthiness of the string). -/
def geminiEvents : List GeminiChunk → List String
  | [] => []
  | ch :: rest =>
    if ch.text = "" then geminiEvents rest
    else sseEvent (payloadJson ch.text) :: geminiEvents rest

/-- The outgoing stream of source lines 85–103.  `delivered` is the list of
chunks the upstream lazy sequence yielded before it ended; `upstreamFails`
tells whether consuming it then raised (the `catch` arm) instead of ending
normally (sentinel, then close). -/
def geminiStream (delivered : List GeminiChunk) (upstreamFails : Bool) : OutStream :=
  if upstreamFails then
    { events := geminiEvents delivered, ending := StreamEnding.errored }
  else
    { events := geminiEvents delivered ++ [doneEvent], ending := StreamEnding.closed }

/-- Modelled from the spec's phrase: the positions of the two most recent
messages with role assistant — the ascending list of assistant indices,
reversed, cut to two.  Compared against the code's `assistantIndices`. -/
def lastTwoAssistantIdx (msgs : List Message) : List Nat :=
  (((List.range msgs.length).filter
      (fun i => decide (roleAt msgs i = Role.assistant))).reverse).take 2

/-- Assistant indices below `i`, in descending order (proof ladder between
the collection loop and `lastTwoAssistantIdx`). -/
def descAssistant (msgs : List Message) : Nat → List Nat
  | 0 => []
  | i + 1 =>
    if roleAt msgs i = Role.assistant then i :: descAssistant msgs i
    else descAssistant msgs i

/-! ### Fence lemmas -/

theorem fenceAt_iff {s : List Char} : fenceAt s = true ↔ s.take 3 = fenceStr := by
  simp [fenceAt]

theorem fenceAt_fenceStr_append (v : List Char) : fenceAt (fenceStr ++ v) = true := by
  rw [fenceAt_iff]
  rfl

theorem fenceAt_length {s : List Char} (h : fenceAt s = true) : 3 ≤ s.length := by
  have h3 := fenceAt_iff.mp h
  have := congrArg List.length h3
  simp [fenceStr, List.length_take] at this
  omega

theorem fenceAt_append_left {u : List Char} (v : List Char) (h : fenceAt u = true) :
    fenceAt (u ++ v) = true := by
  have hlen := fenceAt_length h
  rw [fenceAt_iff] at h ⊢
  rw [List.take_append_eq_append_take]
  have h0 : 3 - u.length = 0 := by omega
  simp [h, h0]

theorem hasFence_cons (c : Char) (cs : List Char) :
    hasFence (c :: cs) = (fenceAt (c :: cs) || hasFence cs) := rfl

theorem hasFence_append_right {v : List Char} (u : List Char) (h : hasFence v = true) :
    hasFence (u ++ v) = true := by
  induction u with
  | nil => simpa using h
  | cons c cs ih =>
    rw [List.cons_append, hasFence_cons, ih, Bool.or_true]

theorem hasFence_append_left (v : List Char) :
    ∀ u : List Char, hasFence u = true → hasFence (u ++ v) = true := by
  intro u
  induction u with
  | nil => intro h; simp [hasFence] at h
  | cons c cs ih =>
    intro h
    rw [hasFence_cons, Bool.or_eq_true] at h
    rw [List.cons_append, hasFence_cons]
    rcases h with hf | ht
    · have hg : fenceAt (c :: (cs ++ v)) = true := fenceAt_append_left v hf
      rw [hg, Bool.true_or]
    · rw [ih ht, Bool.or_true]

theorem hasFence_decomp (u v : List Char) : hasFence (u ++ fenceStr ++ v) = true := by
  have h1 : hasFence (fenceStr ++ v) = true := by
    have hf := fenceAt_fenceStr_append v
    change (fenceAt (fenceStr ++ v) || hasFence ([btChar, btChar] ++ v)) = true
    rw [hf, Bool.true_or]
  rw [List.append_assoc]
  exact hasFence_append_right u h1

theorem hasFence_iff {s : List Char} :
    hasFence s = true ↔ ∃ u v, s = u ++ fenceStr ++ v := by
  constructor
  · induction s with
    | nil => intro h; simp [hasFence] at h
    | cons c cs ih =>
      intro h
      rw [hasFence_cons, Bool.or_eq_true] at h
      rcases h with hf | ht
      · refine ⟨[], (c :: cs).drop 3, ?_⟩
        have h3 := fenceAt_iff.mp hf
        calc c :: cs = (c :: cs).take 3 ++ (c :: cs).drop 3 :=
              (List.take_append_drop _ _).symm
          _ = fenceStr ++ (c :: cs).drop 3 := by rw [h3]
          _ = [] ++ fenceStr ++ (c :: cs).drop 3 := by simp
      · obtain ⟨u, v, huv⟩ := ih ht
        exact ⟨c :: u, v, by simp [huv]⟩
  · rintro ⟨u, v, rfl⟩
    exact hasFence_decomp u v

theorem splitFence_decomp : ∀ {s b r : List Char},
    splitFence s = some (b, r) → s = b ++ fenceStr ++ r := by
  intro s
  induction s with
  | nil => intro b r h; simp [splitFence] at h
  | cons c cs ih =>
    intro b r h
    by_cases hf : fenceAt (c :: cs)
    · simp [splitFence, hf] at h
      obtain ⟨hb, hr⟩ := h
      subst hb; subst hr
      have h3 : (c :: cs).take 3 = fenceStr := fenceAt_iff.mp hf
      calc c :: cs
          = (c :: cs).take 3 ++ (c :: cs).drop 3 := (List.take_append_drop 3 (c :: cs)).symm
        _ = fenceStr ++ (c :: cs).drop 3 := by rw [h3]
        _ = [] ++ fenceStr ++ cs.drop 2 := by simp
    · simp [splitFence, hf] at h
      obtain ⟨p1, hsome, hb⟩ := h
      subst hb
      have := ih hsome
      simp [this]

theorem splitFence_eq_none_iff {s : List Char} :
    splitFence s = none ↔ hasFence s = false := by
  induction s with
  | nil => simp [splitFence, hasFence]
  | cons c cs ih =>
    by_cases hf : fenceAt (c :: cs)
    · simp [splitFence, hf, hasFence_cons]
    · simp [splitFence, hf, hasFence_cons, Option.map_eq_none', ih]

theorem splitFence_length2 {s b r : List Char} (h : splitFence s = some (b, r)) :
    b.length + 3 + r.length = s.length := by
  have := splitFence_decomp h
  subst this
  simp [fenceStr]
  omega

theorem splitFence_min : ∀ {s b r : List Char}, splitFence s = some (b, r) →
    ∀ u v, s = u ++ fenceStr ++ v → b.length ≤ u.length := by
  intro s
  induction s with
  | nil => intro b r h u v huv; simp [splitFence] at h
  | cons c cs ih =>
    intro b r h u v huv
    by_cases hf : fenceAt (c :: cs)
    · simp [splitFence, hf] at h
      obtain ⟨hb, hr⟩ := h
      subst hb
      exact Nat.zero_le _
    · cases u with
      | nil =>
        exfalso
        apply hf
        rw [List.nil_append] at huv
        rw [huv]
        exact fenceAt_fenceStr_append v
      | cons u0 us =>
        simp only [List.cons_append] at huv
        injection huv with hc hcs
        simp [splitFence, hf] at h
        obtain ⟨p1, hsome, hb⟩ := h
        subst hb
        have := ih hsome us v hcs
        simp only [List.length_cons]
        omega

theorem splitFence_before_noFence {s b r : List Char}
    (h : splitFence s = some (b, r)) : hasFence b = false := by
  by_contra hb
  rw [Bool.not_eq_false] at hb
  obtain ⟨u, v, huv⟩ := hasFence_iff.mp hb
  have hdec := splitFence_decomp h
  have hmin := splitFence_min h u (v ++ fenceStr ++ r)
    (by rw [hdec, huv]; simp [List.append_assoc])
  have hblen : b.length = u.length + 3 + v.length := by
    rw [huv]
    simp [fenceStr]
    omega
  omega

theorem splitFence_before_getLast {s b r : List Char}
    (h : splitFence s = some (b, r)) : b.getLast? ≠ some btChar := by
  intro hlast
  obtain ⟨b', hb'⟩ := List.getLast?_eq_some_iff.mp hlast
  have hdec := splitFence_decomp h
  have hseq : s = b' ++ fenceStr ++ (btChar :: r) := by
    rw [hdec, hb']
    simp [fenceStr]
  have hmin := splitFence_min h b' (btChar :: r) hseq
  have : b.length = b'.length + 1 := by rw [hb']; simp
  omega

theorem fenceAt_false_head {c : Char} (t : List Char) (hc : c ≠ btChar) :
    fenceAt (c :: t) = false := by
  rw [Bool.eq_false_iff]
  intro hf
  have h3 := fenceAt_iff.mp hf
  rw [List.take_succ_cons] at h3
  simp [fenceStr] at h3
  exact hc h3.1

theorem fenceAt_false_second {c d : Char} (t : List Char) (hd : d ≠ btChar) :
    fenceAt (c :: d :: t) = false := by
  rw [Bool.eq_false_iff]
  intro hf
  have h3 := fenceAt_iff.mp hf
  rw [List.take_succ_cons, List.take_succ_cons] at h3
  simp [fenceStr] at h3
  exact hd h3.2.1

theorem splitFence_append (t : List Char) : ∀ b : List Char,
    hasFence b = false → b.getLast? ≠ some btChar →
    splitFence (b ++ t) = (splitFence t).map (fun p => (b ++ p.1, p.2)) := by
  intro b
  induction b with
  | nil =>
    intro _ _
    simp
  | cons c cs ih =>
    intro hb hlast
    rw [hasFence_cons, Bool.or_eq_false_iff] at hb
    have hstep : fenceAt (c :: (cs ++ t)) = false := by
      cases cs with
      | nil =>
        have hc : c ≠ btChar := by
          intro hc
          exact hlast (by simp [hc])
        exact fenceAt_false_head t hc
      | cons d ds =>
        cases ds with
        | nil =>
          have hd : d ≠ btChar := by
            intro hd
            exact hlast (by simp [hd])
          exact fenceAt_false_second _ hd
        | cons e es =>
          have heq : fenceAt (c :: (d :: e :: es ++ t)) = fenceAt (c :: d :: e :: es) := by
            unfold fenceAt
            simp [List.take_succ_cons]
          rw [heq]
          exact hb.1
    have hlast2 : cs.getLast? ≠ some btChar := by
      cases cs with
      | nil => simp
      | cons d ds =>
        intro hx
        apply hlast
        rw [List.getLast?_cons_cons]
        exact hx
    show splitFence (c :: (cs ++ t)) = _
    rw [splitFence]
    rw [hstep]
    simp only [Bool.false_eq_true, if_false]
    rw [ih hb.2 hlast2]
    cases splitFence t with
    | none => rfl
    | some p => simp

theorem hasPair_eq_none {s : List Char} (h : splitFence s = none) :
    hasPair s = false := by
  unfold hasPair
  rw [h]

theorem hasPair_eq_some {s b r : List Char} (h : splitFence s = some (b, r)) :
    hasPair s = hasFence r := by
  unfold hasPair
  rw [h]

theorem hasPair_append {b t : List Char} (hb : hasFence b = false)
    (hlast : b.getLast? ≠ some btChar) (ht : hasPair t = false) :
    hasPair (b ++ t) = false := by
  cases hsp : splitFence t with
  | none =>
    have h1 : splitFence (b ++ t) = none := by
      rw [splitFence_append t b hb hlast, hsp]
      rfl
    exact hasPair_eq_none h1
  | some p =>
    obtain ⟨u, r⟩ := p
    have h1 : splitFence (b ++ t) = some (b ++ u, r) := by
      rw [splitFence_append t b hb hlast, hsp]
      rfl
    rw [hasPair_eq_some h1]
    rw [hasPair_eq_some hsp] at ht
    exact ht

theorem removeFences_eq_none {s : List Char} (h : splitFence s = none) :
    removeFences s = s := by
  unfold removeFences
  split
  · rfl
  · next b r h1 => rw [h] at h1; simp at h1

theorem removeFences_eq_noclose {s b r : List Char} (h1 : splitFence s = some (b, r))
    (h2 : splitFence r = none) : removeFences s = s := by
  unfold removeFences
  split
  · rfl
  · next b' r' h1' =>
    rw [h1] at h1'
    simp at h1'
    obtain ⟨hb, hr⟩ := h1'
    subst hb
    subst hr
    split
    · rfl
    · next b2 r2 h2' => rw [h2] at h2'; simp at h2'

theorem removeFences_eq_close {s b r b2 r2 : List Char}
    (h1 : splitFence s = some (b, r)) (h2 : splitFence r = some (b2, r2)) :
    removeFences s = b ++ removeFences r2 := by
  rw [removeFences.eq_def, h1]
  simp only [h2]
  split
  · next h2' => rw [h2] at h2'; simp at h2'
  · next b2' r2' h2' =>
    rw [h2] at h2'
    simp at h2'
    obtain ⟨hb2, hr2⟩ := h2'
    subst hr2
    rfl

theorem removeFences_noPair (s : List Char) : hasPair (removeFences s) = false := by
  generalize hn : s.length = n
  induction n using Nat.strong_induction_on generalizing s with
  | _ n ih =>
    cases h1 : splitFence s with
    | none =>
      rw [removeFences_eq_none h1]
      exact hasPair_eq_none h1
    | some p =>
      obtain ⟨b, r⟩ := p
      cases h2 : splitFence r with
      | none =>
        rw [removeFences_eq_noclose h1 h2]
        rw [hasPair_eq_some h1]
        exact splitFence_eq_none_iff.mp h2
      | some q =>
        obtain ⟨b2, r2⟩ := q
        rw [removeFences_eq_close h1 h2]
        have hlen : r2.length < n := by
          have e1 := splitFence_length2 h1
          have e2 := splitFence_length2 h2
          omega
        exact hasPair_append (splitFence_before_noFence h1)
          (splitFence_before_getLast h1) (ih r2.length hlen r2 rfl)

theorem removeFences_of_noPair {s : List Char} (h : hasPair s = false) :
    removeFences s = s := by
  cases h1 : splitFence s with
  | none => exact removeFences_eq_none h1
  | some p =>
    obtain ⟨b, r⟩ := p
    have hr : hasFence r = false := by
      rw [hasPair_eq_some h1] at h
      exact h
    exact removeFences_eq_noclose h1 (splitFence_eq_none_iff.mpr hr)

theorem removeFences_idem (s : List Char) :
    removeFences (removeFences s) = removeFences s :=
  removeFences_of_noPair (removeFences_noPair s)

/-! ### Trim lemmas -/

theorem dropWhile_dropWhile (p : Char → Bool) (l : List Char) :
    (l.dropWhile p).dropWhile p = l.dropWhile p := by
  induction l with
  | nil => rfl
  | cons c cs ih =>
    by_cases hc : p c = true
    · rw [List.dropWhile_cons_of_pos hc]
      exact ih
    · rw [List.dropWhile_cons_of_neg hc, List.dropWhile_cons_of_neg hc]

theorem ltrim_idem (s : List Char) : ltrim (ltrim s) = ltrim s :=
  dropWhile_dropWhile isJSWhitespace s

theorem rtrim_idem (s : List Char) : rtrim (rtrim s) = rtrim s := by
  unfold rtrim
  rw [List.reverse_reverse, dropWhile_dropWhile]

theorem rtrim_decomp (s : List Char) :
    s = rtrim s ++ (s.reverse.takeWhile isJSWhitespace).reverse := by
  unfold rtrim
  calc s = s.reverse.reverse := (List.reverse_reverse s).symm
    _ = (s.reverse.takeWhile isJSWhitespace ++ s.reverse.dropWhile isJSWhitespace).reverse := by
        rw [List.takeWhile_append_dropWhile]
    _ = (s.reverse.dropWhile isJSWhitespace).reverse ++
          (s.reverse.takeWhile isJSWhitespace).reverse := by
        rw [List.reverse_append]

theorem trim_decomp (s : List Char) : ∃ p q, s = p ++ trimChars s ++ q := by
  refine ⟨(rtrim s).takeWhile isJSWhitespace,
    (s.reverse.takeWhile isJSWhitespace).reverse, ?_⟩
  have h2 : rtrim s = (rtrim s).takeWhile isJSWhitespace ++ trimChars s := by
    unfold trimChars ltrim
    rw [List.takeWhile_append_dropWhile]
  calc s = rtrim s ++ (s.reverse.takeWhile isJSWhitespace).reverse := rtrim_decomp s
    _ = ((rtrim s).takeWhile isJSWhitespace ++ trimChars s) ++
          (s.reverse.takeWhile isJSWhitespace).reverse := by rw [← h2]

theorem noPair_after_fence {t u v : List Char} (ht : hasPair t = false)
    (h : t = u ++ fenceStr ++ v) : hasFence v = false := by
  have hft : hasFence t = true := by rw [h]; exact hasFence_decomp u v
  cases hsp : splitFence t with
  | none =>
    rw [splitFence_eq_none_iff] at hsp
    rw [hsp] at hft
    exact absurd hft (by simp)
  | some pr =>
    obtain ⟨b, r⟩ := pr
    rw [hasPair_eq_some hsp] at ht
    have hmin := splitFence_min hsp u v h
    have hdec := splitFence_decomp hsp
    have heq : b ++ (fenceStr ++ r) = u ++ (fenceStr ++ v) := by
      rw [← List.append_assoc, ← List.append_assoc, ← hdec, ← h]
    rcases List.append_eq_append_iff.mp heq with ⟨w, hw1, hw2⟩ | ⟨w, hw1, hw2⟩
    · -- u = b ++ w, fenceStr ++ r = w ++ (fenceStr ++ v)
      have hrv : r = (w ++ fenceStr).drop 3 ++ v := by
        have h3 : (fenceStr ++ r).drop 3 = r := by simp [fenceStr]
        rw [← h3, hw2, ← List.append_assoc, List.drop_append_eq_append_drop]
        have h0 : 3 - (w ++ fenceStr).length = 0 := by
          simp [fenceStr]
        rw [h0, List.drop_zero]
      rw [hrv] at ht
      cases hv : hasFence v with
      | false => rfl
      | true =>
        rw [hasFence_append_right _ hv] at ht
        exact absurd ht (by simp)
    · -- b = u ++ w, fenceStr ++ v = w ++ (fenceStr ++ r)
      have hw0 : w = [] := by
        have hl := congrArg List.length hw1
        simp at hl
        have : w.length = 0 := by omega
        exact List.length_eq_zero.mp this
      subst hw0
      rw [List.nil_append] at hw2
      have hvr : v = r := by
        have := congrArg (List.drop 3) hw2
        simpa [fenceStr] using this
      rw [hvr]
      exact ht

theorem hasPair_infix {t m p q : List Char} (ht : hasPair t = false)
    (hdec : t = p ++ m ++ q) : hasPair m = false := by
  cases hsp : splitFence m with
  | none => exact hasPair_eq_none hsp
  | some pr =>
    obtain ⟨b, r⟩ := pr
    rw [hasPair_eq_some hsp]
    have hdm := splitFence_decomp hsp
    have hdect : t = (p ++ b) ++ fenceStr ++ (r ++ q) := by
      rw [hdec, hdm]
      simp [List.append_assoc]
    have hrq : hasFence (r ++ q) = false := noPair_after_fence ht hdect
    cases hr : hasFence r with
    | false => rfl
    | true =>
      rw [hasFence_append_left q r hr] at hrq
      exact absurd hrq (by simp)

theorem hasPair_trim {s : List Char} (h : hasPair s = false) :
    hasPair (trimChars s) = false := by
  obtain ⟨p, q, hdec⟩ := trim_decomp s
  exact hasPair_infix h hdec

theorem dropWhile_eq_self_of_head {l : List Char}
    (h : ∀ c, l.head? = some c → isJSWhitespace c = false) :
    l.dropWhile isJSWhitespace = l := by
  cases l with
  | nil => rfl
  | cons c cs =>
    have hc := h c rfl
    rw [List.dropWhile_cons_of_neg (by simp [hc])]

theorem ltrim_head (s : List Char) :
    ∀ c, (ltrim s).head? = some c → isJSWhitespace c = false := by
  induction s with
  | nil => intro c h; simp [ltrim, List.dropWhile] at h
  | cons a as ih =>
    intro c h
    by_cases ha : isJSWhitespace a = true
    · rw [ltrim, List.dropWhile_cons_of_pos ha] at h
      exact ih c h
    · rw [ltrim, List.dropWhile_cons_of_neg ha] at h
      simp at h
      rw [← h]
      exact Bool.not_eq_true _ ▸ (Bool.of_not_eq_true ha)

theorem rtrim_getLast (s : List Char) :
    ∀ c, (rtrim s).getLast? = some c → isJSWhitespace c = false := by
  intro c h
  rw [← List.head?_reverse] at h
  unfold rtrim at h
  rw [List.reverse_reverse] at h
  exact ltrim_head s.reverse c h

theorem rtrim_eq_self_of_getLast {l : List Char}
    (h : ∀ c, l.getLast? = some c → isJSWhitespace c = false) : rtrim l = l := by
  have h1 : l.reverse.dropWhile isJSWhitespace = l.reverse :=
    dropWhile_eq_self_of_head
      (fun c hc => h c (by rw [← List.head?_reverse]; exact hc))
  unfold rtrim
  rw [h1, List.reverse_reverse]

theorem trim_idem (s : List Char) : trimChars (trimChars s) = trimChars s := by
  have hr : rtrim (ltrim (rtrim s)) = ltrim (rtrim s) := by
    apply rtrim_eq_self_of_getLast
    intro c hc
    have hgl : (rtrim s).getLast? = some c := by
      conv_lhs =>
        rw [show rtrim s = (rtrim s).takeWhile isJSWhitespace ++ ltrim (rtrim s) by
          unfold ltrim
          rw [List.takeWhile_append_dropWhile]]
      rw [List.getLast?_append, hc]
      rfl
    exact rtrim_getLast s c hgl
  show ltrim (rtrim (ltrim (rtrim s))) = ltrim (rtrim s)
  rw [hr]
  exact ltrim_idem (rtrim s)

theorem stripCodeBlocks_idem (s : String) :
    stripCodeBlocks (stripCodeBlocks s) = stripCodeBlocks s := by
  unfold stripCodeBlocks
  rw [show (String.mk (trimChars (removeFences s.data))).data
      = trimChars (removeFences s.data) from rfl]
  rw [removeFences_of_noPair (hasPair_trim (removeFences_noPair s.data))]
  rw [trim_idem]

/-! ### Message-level lemmas -/

theorem mapIdxGo_length (f : Nat → Message → Message) :
    ∀ (l : List Message) (i : Nat), (mapIdxGo f i l).length = l.length := by
  intro l
  induction l with
  | nil => intro i; rfl
  | cons m ms ih =>
    intro i
    simp [mapIdxGo, ih]

theorem mapIdxGo_getElem? (f : Nat → Message → Message) :
    ∀ (l : List Message) (i j : Nat),
      (mapIdxGo f i l)[j]? = (l[j]?).map (f (i + j)) := by
  intro l
  induction l with
  | nil => intro i j; simp [mapIdxGo]
  | cons m ms ih =>
    intro i j
    cases j with
    | zero => simp [mapIdxGo]
    | succ j' =>
      simp only [mapIdxGo, List.getElem?_cons_succ]
      rw [ih (i + 1) j']
      have harith : i + 1 + j' = i + (j' + 1) := by omega
      rw [harith]

theorem optimize_length (msgs : List Message) :
    (optimizeMessagesForTokens msgs).length = msgs.length :=
  mapIdxGo_length _ msgs 0

theorem optimize_getElem? (msgs : List Message) (i : Nat) :
    (optimizeMessagesForTokens msgs)[i]? = (msgs[i]?).map
      (fun m =>
        if m.role = Role.assistant ∧ ¬ i ∈ assistantIndices msgs then
          { m with content := stripCodeBlocks m.content }
        else m) := by
  unfold optimizeMessagesForTokens
  rw [mapIdxGo_getElem?]
  simp

theorem roleAt_optimize (msgs : List Message) (i : Nat) :
    roleAt (optimizeMessagesForTokens msgs) i = roleAt msgs i := by
  unfold roleAt
  rw [List.getD_eq_getElem?_getD, List.getD_eq_getElem?_getD, optimize_getElem?]
  cases msgs[i]? with
  | none => rfl
  | some m =>
    simp only [Option.map_some', Option.getD_some]
    by_cases hc : m.role = Role.assistant ∧ ¬ i ∈ assistantIndices msgs
    · rw [if_pos hc]
    · rw [if_neg hc]

theorem collectAssistant_congr {msgs1 msgs2 : List Message}
    (h : ∀ j, roleAt msgs1 j = roleAt msgs2 j) :
    ∀ (i : Nat) (acc : List Nat),
      collectAssistant msgs1 i acc = collectAssistant msgs2 i acc := by
  intro i
  induction i with
  | zero => intro acc; rfl
  | succ i' ih =>
    intro acc
    simp only [collectAssistant, h i']
    by_cases hl : acc.length < 2
    · rw [if_pos hl, if_pos hl, ih]
    · rw [if_neg hl, if_neg hl]

theorem assistantIndices_optimize (msgs : List Message) :
    assistantIndices (optimizeMessagesForTokens msgs) = assistantIndices msgs := by
  unfold assistantIndices
  rw [optimize_length]
  exact collectAssistant_congr (roleAt_optimize msgs) msgs.length []

/-- C3: code-block stripping is idempotent on message lists — a second pass
of `optimizeMessagesForTokens` changes nothing: exempt messages stay
untouched on every pass, and a stripped content has no removable
fenced span left, so stripping it again (and re-trimming) is the
identity. -/
theorem stripping_idempotent (msgs : List Message) :
    optimizeMessagesForTokens (optimizeMessagesForTokens msgs)
      = optimizeMessagesForTokens msgs := by
  apply List.ext_getElem?
  intro i
  rw [optimize_getElem?, assistantIndices_optimize, optimize_getElem?]
  cases hm : msgs[i]? with
  | none => rfl
  | some m =>
    simp only [Option.map_some']
    by_cases hc : m.role = Role.assistant ∧ ¬ i ∈ assistantIndices msgs
    · rw [if_pos hc]
      rw [if_pos (show ({ m with content := stripCodeBlocks m.content } : Message).role
          = Role.assistant ∧ ¬ i ∈ assistantIndices msgs from ⟨hc.1, hc.2⟩)]
      simp [stripCodeBlocks_idem]
    · rw [if_neg hc, if_neg hc]

theorem collectAssistant_eq_desc (msgs : List Message) :
    ∀ (i : Nat) (acc : List Nat),
      collectAssistant msgs i acc
        = acc ++ (descAssistant msgs i).take (2 - acc.length) := by
  intro i
  induction i with
  | zero => intro acc; simp [collectAssistant, descAssistant]
  | succ i' ih =>
    intro acc
    by_cases hl : acc.length < 2
    · simp only [collectAssistant]
      rw [if_pos hl]
      by_cases hr : roleAt msgs i' = Role.assistant
      · rw [if_pos hr, ih]
        simp only [descAssistant]
        rw [if_pos hr]
        have hlen : (acc ++ [i']).length = acc.length + 1 := by simp
        rw [hlen]
        have htake : (2 - acc.length) = (2 - (acc.length + 1)) + 1 := by omega
        rw [htake, List.take_succ_cons]
        simp [List.append_assoc]
      · rw [if_neg hr, ih]
        simp only [descAssistant]
        rw [if_neg hr]
    · simp only [collectAssistant]
      rw [if_neg hl]
      have h0 : 2 - acc.length = 0 := by omega
      rw [h0, List.take_zero, List.append_nil]

theorem descAssistant_eq (msgs : List Message) :
    ∀ i, descAssistant msgs i
      = ((List.range i).filter
          (fun j => decide (roleAt msgs j = Role.assistant))).reverse := by
  intro i
  induction i with
  | zero => rfl
  | succ i' ih =>
    rw [List.range_succ, List.filter_append]
    simp only [descAssistant]
    by_cases hr : roleAt msgs i' = Role.assistant
    · rw [if_pos hr, ih]
      simp [hr]
    · rw [if_neg hr, ih]
      simp [hr]

theorem assistantIndices_eq_lastTwo (msgs : List Message) :
    assistantIndices msgs = lastTwoAssistantIdx msgs := by
  unfold assistantIndices lastTwoAssistantIdx
  rw [collectAssistant_eq_desc, descAssistant_eq]
  simp

/-- C1: the stripping step preserves length, order and every role; system
and user messages and the two most recent assistant messages are returned
byte-identical; every other assistant message gets its content replaced by
the fence-removed, trimmed copy. -/
theorem strip_step_shape (msgs : List Message) :
    (optimizeMessagesForTokens msgs).length = msgs.length ∧
    (∀ i, roleAt (optimizeMessagesForTokens msgs) i = roleAt msgs i) ∧
    (∀ i m, msgs[i]? = some m →
      ((m.role = Role.system ∨ m.role = Role.user →
          (optimizeMessagesForTokens msgs)[i]? = some m) ∧
       (m.role = Role.assistant → i ∈ lastTwoAssistantIdx msgs →
          (optimizeMessagesForTokens msgs)[i]? = some m) ∧
       (m.role = Role.assistant → ¬ i ∈ lastTwoAssistantIdx msgs →
          (optimizeMessagesForTokens msgs)[i]? =
            some { role := Role.assistant
                 , content := stripCodeBlocks m.content }))) := by
  refine ⟨optimize_length msgs, roleAt_optimize msgs, ?_⟩
  intro i m hm
  refine ⟨?_, ?_, ?_⟩
  · intro hsys
    have hcond : ¬ (m.role = Role.assistant ∧ ¬ i ∈ assistantIndices msgs) := by
      rcases hsys with h | h <;> simp [h]
    rw [optimize_getElem?, hm, Option.map_some', if_neg hcond]
  · intro hrole hmem
    rw [← assistantIndices_eq_lastTwo] at hmem
    have hcond : ¬ (m.role = Role.assistant ∧ ¬ i ∈ assistantIndices msgs) := by
      simp [hmem]
    rw [optimize_getElem?, hm, Option.map_some', if_neg hcond]
  · intro hrole hmem
    rw [← assistantIndices_eq_lastTwo] at hmem
    have hcond : m.role = Role.assistant ∧ ¬ i ∈ assistantIndices msgs :=
      ⟨hrole, hmem⟩
    rw [optimize_getElem?, hm, Option.map_some', if_pos hcond]
    cases m with
    | mk r c =>
      simp at hrole
      simp [hrole]

/-- Witness for C1 at a concrete one-message history. -/
theorem strip_step_shape_witness :
    (optimizeMessagesForTokens [{ role := Role.user, content := "hi" }])[0]?
      = some { role := Role.user, content := "hi" } :=
  ((strip_step_shape [{ role := Role.user, content := "hi" }]).2.2 0
    { role := Role.user, content := "hi" } rfl).1 (Or.inr rfl)

/-- C2: capping is a no-op at length at most 10; above 10 it returns exactly
10 entries, the first three followed by the last seven in order; on a
12-entry list it keeps positions 0,1,2,5,6,7,8,9,10,11. -/
theorem cap_step_shape :
    (∀ msgs : List Message, msgs.length ≤ 10 → capMessages msgs = msgs) ∧
    (∀ msgs : List Message, 10 < msgs.length →
      (capMessages msgs).length = 10 ∧
      capMessages msgs = msgs.take 3 ++ msgs.drop (msgs.length - 7)) ∧
    (∀ m0 m1 m2 m3 m4 m5 m6 m7 m8 m9 m10 m11 : Message,
      capMessages [m0, m1, m2, m3, m4, m5, m6, m7, m8, m9, m10, m11]
        = [m0, m1, m2, m5, m6, m7, m8, m9, m10, m11]) := by
  refine ⟨?_, ?_, ?_⟩
  · intro msgs h
    unfold capMessages
    rw [if_neg (by omega)]
  · intro msgs h
    cases msgs with
    | nil => simp at h
    | cons m0 t0 =>
      cases t0 with
      | nil => simp at h
      | cons m1 t1 =>
        cases t1 with
        | nil => simp at h
        | cons m2 t2 =>
          constructor
          · unfold capMessages
            rw [if_pos (by simpa using h)]
            simp only [List.length_append, List.length_cons, List.length_nil,
              List.length_drop]
            simp at h
            omega
          · unfold capMessages
            rw [if_pos (by simpa using h)]
            simp [List.getD_cons_zero, List.getD_cons_succ, List.take_succ_cons]
  · intro m0 m1 m2 m3 m4 m5 m6 m7 m8 m9 m10 m11
    rfl

/-- Witness for C2 at a concrete 11-entry list. -/
theorem cap_step_shape_witness :
    (capMessages ((List.range 11).map
        (fun i => { role := Role.user, content := toString i }))).length = 10 :=
  (cap_step_shape.2.1 _ (by decide)).1

/-- C5: an unresolved messageId yields the empty-bodied 404 with no history
query and no provider contact. -/
theorem notFound_shortCircuit (history : List Message) (model : String) :
    POST none history model = ([], HandlerResponse.notFound) ∧
    statusCode (POST none history model).2 = 404 ∧
    bodyIsEmpty (POST none history model).2 = true ∧
    (POST none history model).1.countP isProviderCall = 0 ∧
    Effect.historyQuery ∉ (POST none history model).1 := by
  refine ⟨rfl, rfl, rfl, rfl, ?_⟩
  simp [POST]

/-- C4: dispatch is decided by case-sensitive containment of the marker in
the model string; a request never invokes the provider the test excludes,
and a request that passed the lookup invokes exactly one provider. -/
theorem provider_dispatch_exclusive (stored : Option Unit) (history : List Message)
    (model : String) :
    (strIncludes model geminiMarker = true →
      (POST stored history model).1.countP isTogetherCall = 0) ∧
    (strIncludes model geminiMarker = false →
      (POST stored history model).1.countP isGeminiCall = 0) ∧
    (stored = some () →
      (POST stored history model).1.countP isProviderCall = 1 ∧
      ((POST stored history model).1.countP isGeminiCall
          = if strIncludes model geminiMarker then 1 else 0) ∧
      ((POST stored history model).1.countP isTogetherCall
          = if strIncludes model geminiMarker then 0 else 1)) := by
  cases stored with
  | none =>
    exact ⟨fun _ => rfl, fun _ => rfl, fun h => by simp at h⟩
  | some u =>
    cases u
    by_cases hg : strIncludes model geminiMarker = true
    · refine ⟨fun _ => ?_, fun hf => ?_, fun _ => ?_⟩
      · simp [POST, hg, List.countP_cons, isTogetherCall, isProviderCall]
      · rw [hg] at hf; simp at hf
      · refine ⟨?_, ?_, ?_⟩ <;>
          simp [POST, hg, List.countP_cons, isTogetherCall, isGeminiCall,
            isProviderCall]
    · rw [Bool.not_eq_true] at hg
      refine ⟨fun hf => ?_, fun _ => ?_, fun _ => ?_⟩
      · rw [hg] at hf; simp at hf
      · simp [POST, hg, List.countP_cons, isGeminiCall, isProviderCall]
      · refine ⟨?_, ?_, ?_⟩ <;>
          simp [POST, hg, List.countP_cons, isTogetherCall, isGeminiCall,
            isProviderCall]

/-- Witness for C4 at a concrete request on the Gemini side. -/
theorem provider_dispatch_exclusive_witness :
    (POST (some ()) [] "gemini-1.5-flash").1.countP isTogetherCall = 0 :=
  (provider_dispatch_exclusive (some ()) [] "gemini-1.5-flash").1 (by decide)

/-- C10: on the Gemini path the upstream call always uses the fixed model
identifier, ignoring the requested model string; on the Together path the
requested model string is forwarded verbatim. -/
theorem model_forwarding (history : List Message) (model : String) :
    (strIncludes model geminiMarker = true →
      (POST (some ()) history model).2 = HandlerResponse.eventStream
        (ProviderCall.gemini (mkGeminiRequest
          (capMessages (optimizeMessagesForTokens history)))) ∧
      (mkGeminiRequest (capMessages (optimizeMessagesForTokens history))).modelId
        = "gemini-1.5-pro") ∧
    (strIncludes model geminiMarker = false →
      (POST (some ()) history model).2 = HandlerResponse.eventStream
        (ProviderCall.together (mkTogetherRequest model
          (capMessages (optimizeMessagesForTokens history)))) ∧
      (mkTogetherRequest model
          (capMessages (optimizeMessagesForTokens history))).model = model) := by
  constructor
  · intro h
    exact ⟨by simp [POST, h], rfl⟩
  · intro h
    exact ⟨by simp [POST, h], rfl⟩

/-- Witness for C10: a request for a hypothetical newer Gemini model is
still sent as the fixed identifier. -/
theorem model_forwarding_witness :
    (mkGeminiRequest (capMessages (optimizeMessagesForTokens []))).modelId
      = "gemini-1.5-pro" :=
  ((model_forwarding [] "gemini-2.0-pro").1 (by decide)).2

theorem find?_first {p : Message → Bool} :
    ∀ (l : List Message) (i : Nat) (m : Message), l[i]? = some m → p m = true →
      (∀ j mj, j < i → l[j]? = some mj → p mj = false) →
      l.find? p = some m := by
  intro l
  induction l with
  | nil => intro i m hm hp hbef; simp at hm
  | cons a t ih =>
    intro i m hm hp hbef
    cases i with
    | zero =>
      simp at hm
      subst hm
      exact List.find?_cons_of_pos _ hp
    | succ i' =>
      have ha : p a = false := hbef 0 a (Nat.succ_pos i') (by simp)
      rw [List.find?_cons_of_neg _ (by simp [ha])]
      refine ih i' m (by simpa using hm) hp ?_
      intro j mj hj hmj
      exact hbef (j + 1) mj (by omega) (by simpa using hmj)

/-- C6: the Gemini turn list is exactly the non-system messages in order,
with assistant mapped to the model role and everything else to the user
role; the system instruction is the first system message's content when
one exists (later system messages are ignored) and absent otherwise. -/
theorem gemini_request_shaping (msgs : List Message) :
    ((mkGeminiRequest msgs).contents
        = (msgs.filter (fun m => decide (m.role ≠ Role.system))).map
            (fun m =>
              { role := if m.role = Role.assistant then "model" else "user"
              , parts := [{ text := m.content }] })) ∧
    ((∀ m ∈ msgs, m.role ≠ Role.system) →
        (mkGeminiRequest msgs).systemInstruction = none) ∧
    (∀ (i : Nat) (m : Message), msgs[i]? = some m → m.role = Role.system →
      (∀ (j : Nat) (mj : Message), j < i → msgs[j]? = some mj →
        mj.role ≠ Role.system) →
      (mkGeminiRequest msgs).systemInstruction = some m.content) := by
  refine ⟨rfl, ?_, ?_⟩
  · intro h
    unfold mkGeminiRequest
    simp only
    rw [List.find?_eq_none.mpr]
    · rfl
    · intro x hx
      simp [h x hx]
  · intro i m hm hrole hbef
    unfold mkGeminiRequest
    simp only
    rw [find?_first msgs i m hm (by simp [hrole]) ?_]
    · rfl
    · intro j mj hj hmj
      simp [hbef j mj hj hmj]

/-- Witness for C6: with two system messages only the first is honored. -/
theorem gemini_request_shaping_witness :
    (mkGeminiRequest [{ role := Role.system, content := "s1" },
        { role := Role.system, content := "s2" }]).systemInstruction
      = some "s1" :=
  (gemini_request_shaping _).2.2 0 { role := Role.system, content := "s1" }
    rfl rfl (fun j mj hj hmj => absurd hj (by omega))

theorem geminiEvents_eq (chunks : List GeminiChunk) :
    geminiEvents chunks
      = (chunks.filter (fun ch => decide (ch.text ≠ ""))).map
          (fun ch => sseEvent (payloadJson ch.text)) := by
  induction chunks with
  | nil => rfl
  | cons ch rest ih =>
    by_cases h : ch.text = ""
    · simp [geminiEvents, h, ih]
    · simp [geminiEvents, h, ih]

/-- C7: on normal upstream completion, the outgoing stream is one SSE data
event per non-empty text delta, in order, then the sentinel, then close;
for the chunks He and llo it is exactly the two data events and the
sentinel. -/
theorem stream_normal_completion :
    (∀ chunks : List GeminiChunk,
      geminiStream chunks false
        = { events := (chunks.filter (fun ch => decide (ch.text ≠ ""))).map
              (fun ch => sseEvent (payloadJson ch.text)) ++ [doneEvent]
          , ending := StreamEnding.closed }) ∧
    geminiStream [{ text := "He" }, { text := "llo" }] false
      = { events :=
            ["data: \x7b\"choices\":[\x7b\"delta\":\x7b\"content\":\"He\"\x7d\x7d]\x7d\n\n",
             "data: \x7b\"choices\":[\x7b\"delta\":\x7b\"content\":\"llo\"\x7d\x7d]\x7d\n\n",
             "data: [DONE]\n\n"]
        , ending := StreamEnding.closed } := by
  constructor
  · intro chunks
    simp [geminiStream, geminiEvents_eq]
  · rfl

theorem payloadJson_data (t : String) :
    (payloadJson t).data
      = '\x7b' :: ("\"choices\":[\x7b\"delta\":\x7b\"content\":".data
          ++ ((jsonQuote t).data ++ "\x7d\x7d]\x7d".data)) := by
  unfold payloadJson
  rw [String.data_append, String.data_append, List.append_assoc]
  rfl

theorem sseEvent_ne_done (t : String) : sseEvent (payloadJson t) ≠ doneEvent := by
  intro h
  have hd := congrArg (fun s => s.data.drop 6) h
  simp only at hd
  rw [show sseEvent (payloadJson t) = "data: " ++ (payloadJson t ++ "\n\n") by
    unfold sseEvent; rw [String.append_assoc]] at hd
  rw [String.data_append, List.drop_append_eq_append_drop] at hd
  rw [show (("data: ".data : List Char)).drop 6 = [] from rfl] at hd
  rw [show (6 - ("data: ".data : List Char).length) = 0 from rfl] at hd
  rw [List.drop_zero, List.nil_append, String.data_append] at hd
  rw [show ((doneEvent.data : List Char)).drop 6
      = ['[', 'D', 'O', 'N', 'E', ']', '\n', '\n'] from rfl] at hd
  rw [payloadJson_data] at hd
  simp at hd

theorem done_not_mem (chunks : List GeminiChunk) :
    doneEvent ∉ geminiEvents chunks := by
  induction chunks with
  | nil => simp [geminiEvents]
  | cons ch rest ih =>
    by_cases h : ch.text = ""
    · simp [geminiEvents, h, ih]
    · simp only [geminiEvents, h, if_false, List.mem_cons]
      intro hmem
      rcases hmem with he | he
      · exact sseEvent_ne_done ch.text he.symm
      · exact ih he

/-- C8: when consuming the upstream sequence raises after some delivered
chunks, the outgoing stream errors; the events already emitted stay exactly
as in a normal run over the same chunks, the sentinel never appears among
them, and no close happens. -/
theorem stream_failure (chunks : List GeminiChunk) :
    (geminiStream chunks true).ending = StreamEnding.errored ∧
    (geminiStream chunks true).ending ≠ StreamEnding.closed ∧
    (geminiStream chunks true).events = geminiEvents chunks ∧
    (geminiStream chunks false).events
      = (geminiStream chunks true).events ++ [doneEvent] ∧
    doneEvent ∉ (geminiStream chunks true).events := by
  refine ⟨rfl, by simp [geminiStream], rfl, rfl, ?_⟩
  show doneEvent ∉ geminiEvents chunks
  exact done_not_mem chunks

theorem strip_fence_a : stripCodeBlocks "```a```" = "" := by
  have h1 : splitFence ("```a```".data) = some ([], ['a', btChar, btChar, btChar]) := by
    decide
  have h2 : splitFence ['a', btChar, btChar, btChar] = some (['a'], []) := by
    decide
  have h3 : removeFences ("```a```".data) = [] ++ removeFences [] :=
    removeFences_eq_close h1 h2
  have h4 : removeFences ([] : List Char) = [] := removeFences_eq_none rfl
  unfold stripCodeBlocks
  rw [h3, h4]
  rfl

/-- C9: on the five-message worked example the two exemption slots absorb
the two most recent assistant messages; the remaining assistant message has
its fenced block removed, leaving the empty string after trimming; with a
non-Gemini model the whole request goes to the Together provider with that
list. -/
theorem worked_example :
    optimizeMessagesForTokens
        [{ role := Role.system, content := "sys" },
         { role := Role.user, content := "hi" },
         { role := Role.assistant, content := "```a```" },
         { role := Role.assistant, content := "```b```" },
         { role := Role.assistant, content := "```c```" }]
      = [{ role := Role.system, content := "sys" },
         { role := Role.user, content := "hi" },
         { role := Role.assistant, content := "" },
         { role := Role.assistant, content := "```b```" },
         { role := Role.assistant, content := "```c```" }] ∧
    strIncludes "llama-3.1-405b" geminiMarker = false ∧
    (POST (some ())
        [{ role := Role.system, content := "sys" },
         { role := Role.user, content := "hi" },
         { role := Role.assistant, content := "```a```" },
         { role := Role.assistant, content := "```b```" },
         { role := Role.assistant, content := "```c```" }]
        "llama-3.1-405b").2
      = HandlerResponse.eventStream (ProviderCall.together
          (mkTogetherRequest "llama-3.1-405b"
            [{ role := Role.system, content := "sys" },
             { role := Role.user, content := "hi" },
             { role := Role.assistant, content := "" },
             { role := Role.assistant, content := "```b```" },
             { role := Role.assistant, content := "```c```" }])) := by
  have hopt : optimizeMessagesForTokens
      [{ role := Role.system, content := "sys" },
       { role := Role.user, content := "hi" },
       { role := Role.assistant, content := "```a```" },
       { role := Role.assistant, content := "```b```" },
       { role := Role.assistant, content := "```c```" }]
      = [{ role := Role.system, content := "sys" },
         { role := Role.user, content := "hi" },
         { role := Role.assistant, content := "" },
         { role := Role.assistant, content := "```b```" },
         { role := Role.assistant, content := "```c```" }] := by
    have hbase : optimizeMessagesForTokens
        [{ role := Role.system, content := "sys" },
         { role := Role.user, content := "hi" },
         { role := Role.assistant, content := "```a```" },
         { role := Role.assistant, content := "```b```" },
         { role := Role.assistant, content := "```c```" }]
        = [{ role := Role.system, content := "sys" },
           { role := Role.user, content := "hi" },
           { role := Role.assistant, content := stripCodeBlocks "```a```" },
           { role := Role.assistant, content := "```b```" },
           { role := Role.assistant, content := "```c```" }] := rfl
    rw [hbase, strip_fence_a]
  refine ⟨hopt, rfl, ?_⟩
  have hpost : (POST (some ())
      [{ role := Role.system, content := "sys" },
       { role := Role.user, content := "hi" },
       { role := Role.assistant, content := "```a```" },
       { role := Role.assistant, content := "```b```" },
       { role := Role.assistant, content := "```c```" }]
      "llama-3.1-405b").2
      = HandlerResponse.eventStream (ProviderCall.together
          (mkTogetherRequest "llama-3.1-405b"
            (capMessages (optimizeMessagesForTokens
              [{ role := Role.system, content := "sys" },
               { role := Role.user, content := "hi" },
               { role := Role.assistant, content := "```a```" },
               { role := Role.assistant, content := "```b```" },
               { role := Role.assistant, content := "```c```" }])))) := rfl
  rw [hpost, hopt]
  rfl
